import Mathlib

/-
Shallow embedding of src/src/heapify.ts (class MinQueue): a fixed-capacity,
1-based, array-backed binary min-heap with lazy root deletion.

Modelling conventions:
* The two parallel TypedArrays `_keys` and `_priorities` are modelled as a
  `Store` of two total functions `Nat → Nat`.  The backing arrays default to
  `Uint32Array`, so every externally supplied value is truncated modulo 2^32
  at the write site (constructor copy loop and `push`); internal moves copy
  already-stored (hence already-truncated) values, for which the truncation
  is the identity, so they are modelled as plain writes.
* The `while` loops of `bubbleUp` / `bubbleDown` are modelled with an explicit
  structural fuel argument so that every definition evaluates by `rfl`.  The
  wrappers pass a fuel that provably bounds the iteration count (`index` for
  bubbleUp, whose index at least halves each round and stops at the root;
  `1 + length / 2` for bubbleDown, whose index strictly grows while it stays
  below `halfLength = 1 + length / 2`), so the fuel is never exhausted on the
  source's call sites; all lemmas below carry the corresponding bound.
* Thrown JS exceptions are modelled by `Except JsError`; `pop` on an empty
  queue returns `Option.none` (JS `undefined`), which is not an error.
-/

namespace Heapify

/-- Modulus of the default `Uint32Array` backing stores. -/
def u32 : Nat := 2 ^ 32

/-- Pointwise update of a total function modelling a backing array. -/
def upd (f : Nat → Nat) (i v : Nat) : Nat → Nat := fun j => if j = i then v else f j

/-- The two index-aligned backing stores `_keys` and `_priorities`. -/
structure Store where
  keys : Nat → Nat
  prios : Nat → Nat

/-- Read the (key, priority) pair stored at position `i`. -/
def Store.get (st : Store) (i : Nat) : Nat × Nat := (st.keys i, st.prios i)

/-- Write a (key, priority) pair at position `i` (the source always writes the
two parallel arrays at the same index back to back). -/
def Store.set (st : Store) (i : Nat) (e : Nat × Nat) : Store :=
  { keys := upd st.keys i e.1, prios := upd st.prios i e.2 }

/-- Loop of `MinQueue.bubbleUp` (heapify.ts lines 59-80): the held pair `e`
has been hoisted out of position `index`; while the parent's priority is
strictly greater than the held priority, the parent is copied down and the
index moves to the parent; finally the held pair is written at `index`. -/
def bubbleUpLoop : Nat → Store → Nat × Nat → Nat → Store
  | 0, st, e, index => st.set index e
  | fuel + 1, st, e, index =>
    if 1 < index ∧ e.2 < st.prios (index / 2) then
      bubbleUpLoop fuel (st.set index (st.get (index / 2))) e (index / 2)
    else
      st.set index e

/-- `MinQueue.bubbleUp(index)`: hoist the pair at `index` and run the loop. -/
def Store.bubbleUp (st : Store) (index : Nat) : Store :=
  bubbleUpLoop index st (st.get index) index

/-- Loop of `MinQueue.bubbleDown` (heapify.ts lines 85-125): `halfLength` and
`lastIndex` are computed once from `this.length` at entry; the held pair `e`
was hoisted out of the starting index; each round picks the live child with
the smaller priority (the right child only if it exists, i.e.
`right < lastIndex`, and is strictly smaller) and stops as soon as
`childPriority >= priority`. -/
def bubbleDownLoop : Nat → Store → Nat → Nat → Nat × Nat → Nat → Store
  | 0, st, _, _, e, index => st.set index e
  | fuel + 1, st, halfLength, lastIndex, e, index =>
    if index < halfLength then
      let left := 2 * index
      let childIndex :=
        if left + 1 < lastIndex ∧ st.prios (left + 1) < st.prios left then left + 1 else left
      if e.2 ≤ st.prios childIndex then
        st.set index e
      else
        bubbleDownLoop fuel (st.set index (st.get childIndex)) halfLength lastIndex e childIndex
    else
      st.set index e

/-- `MinQueue.bubbleDown(index)`; `length` is the value of `this.length` read
at entry (`halfLength = ROOT_INDEX + (length >>> 1)`,
`lastIndex = length + ROOT_INDEX`). -/
def Store.bubbleDown (st : Store) (length index : Nat) : Store :=
  bubbleDownLoop (1 + length / 2) st (1 + length / 2) (length + 1) (st.get index) index

/-- State of a `MinQueue` instance: fixed `_capacity`, the two backing stores,
the live element count `length`, and the lazy-deletion flag
`_hasPoppedElement`. -/
structure MinQueue where
  _capacity : Nat
  store : Store
  length : Nat
  _hasPoppedElement : Bool

/-- The exceptions thrown by heapify.ts, by throw site:
`keysPrioritiesMismatch` and `capacityLessThanKeys` from the constructor,
`heapFull` from `push`, and `invalidArrayLength` for the JS `RangeError`
raised by `Array(this.length - ROOT_INDEX)` in `dumpRawPriorities` when
`this.length = 0` (so that the requested array length is `-1`). -/
inductive JsError where
  | keysPrioritiesMismatch
  | capacityLessThanKeys
  | heapFull
  | invalidArrayLength
deriving DecidableEq

/-- `MinQueue.removePoppedElement` (heapify.ts lines 177-186): if a deletion
is pending, move the pair at position `length + 1` into the root slot, bubble
down from the root, and clear the flag. -/
def MinQueue.removePoppedElement (s : MinQueue) : MinQueue :=
  if s._hasPoppedElement then
    { s with
      store := Store.bubbleDown (s.store.set 1 (s.store.get (s.length + 1))) s.length 1
      _hasPoppedElement := false }
  else s

/-- `MinQueue.push` (heapify.ts lines 131-150). -/
def MinQueue.push (s : MinQueue) (key priority : Nat) : Except JsError MinQueue :=
  if s.length = s._capacity then
    .error .heapFull
  else if s._hasPoppedElement then
    .ok { s with
      store := Store.bubbleDown (s.store.set 1 (key % u32, priority % u32)) (s.length + 1) 1
      length := s.length + 1
      _hasPoppedElement := false }
  else
    .ok { s with
      store := Store.bubbleUp (s.store.set (s.length + 1) (key % u32, priority % u32))
        (s.length + 1)
      length := s.length + 1 }

/-- `MinQueue.pop` (heapify.ts lines 155-165): `undefined` on an empty queue,
otherwise resolve any pending deletion, decrement `length`, set the pending
flag and return the root key. -/
def MinQueue.pop (s : MinQueue) : Option Nat × MinQueue :=
  if s.length = 0 then (none, s)
  else
    let s1 := s.removePoppedElement
    let s2 : MinQueue := { s1 with length := s1.length - 1, _hasPoppedElement := true }
    (some (s2.store.keys 1), s2)

/-- `MinQueue.peek`: resolve any pending deletion, then read the root key. -/
def MinQueue.peek (s : MinQueue) : Nat × MinQueue :=
  let s1 := s.removePoppedElement
  (s1.store.keys 1, s1)

/-- `MinQueue.peekPriority`: resolve any pending deletion, then read the root
priority. -/
def MinQueue.peekPriority (s : MinQueue) : Nat × MinQueue :=
  let s1 := s.removePoppedElement
  (s1.store.prios 1, s1)

/-- `MinQueue.clear`. -/
def MinQueue.clear (s : MinQueue) : MinQueue :=
  { s with length := 0, _hasPoppedElement := false }

/-- `MinQueue.size` getter. -/
def MinQueue.size (s : MinQueue) : Nat := s.length

/-- `MinQueue.capacity` getter. -/
def MinQueue.capacity (s : MinQueue) : Nat := s._capacity

/-- The constructor's copy loop: `this._keys[i + ROOT_INDEX] = keys[i]` and
similarly for priorities, with the `Uint32Array` truncation at the write. -/
def copyIn : Store → List Nat → List Nat → Nat → Store
  | st, k :: ks, p :: ps, i => copyIn (st.set (i + 1) (k % u32, p % u32)) ks ps (i + 1)
  | st, _, _, _ => st

/-- The constructor's heapify loop:
`for (let i = keys.length >>> 1; i >= ROOT_INDEX; i--) this.bubbleDown(i)`. -/
def heapifyFrom : Store → Nat → Nat → Store
  | st, _, 0 => st
  | st, length, i + 1 => heapifyFrom (st.bubbleDown length (i + 1)) length i

/-- The `MinQueue` constructor (heapify.ts lines 20-45); fresh TypedArrays are
zero-filled. -/
def MinQueue.new (capacity : Nat) (keys priorities : List Nat) : Except JsError MinQueue :=
  if keys.length ≠ priorities.length then .error .keysPrioritiesMismatch
  else if capacity < keys.length then .error .capacityLessThanKeys
  else
    .ok { _capacity := capacity
          store := heapifyFrom (copyIn ⟨fun _ => 0, fun _ => 0⟩ keys priorities 0)
            keys.length (keys.length / 2)
          length := keys.length
          _hasPoppedElement := false }

/-- `MinQueue.dumpRawPriorities` (heapify.ts lines 192-200): resolve any
pending deletion, then build `Array(this.length - ROOT_INDEX)` — which throws
a `RangeError` when `this.length = 0`, because the requested length is `-1` —
fill it with the live priorities at positions 1..length in raw physical
order, and join with spaces inside brackets. -/
def MinQueue.dumpRawPriorities (s : MinQueue) : Except JsError String × MinQueue :=
  let s1 := s.removePoppedElement
  if s1.length = 0 then (.error .invalidArrayLength, s1)
  else
    (.ok ("[" ++
        String.intercalate " " ((List.range s1.length).map
          (fun i => toString (s1.store.prios (i + 1)))) ++ "]"),
      s1)

/-- Modelled from the spec: `popPush` is absent from src/src/heapify.ts (only
its tests exist, in src/test/heapify.mjs); the spec says it calls `pop`
(capturing its result, which may be empty if the queue was empty), then
unconditionally calls `push(key, priority)`, then returns pop's captured
result, propagating push's capacity error. -/
def MinQueue.popPush (s : MinQueue) (key priority : Nat) :
    Except JsError (Option Nat × MinQueue) :=
  let r := s.pop
  (r.2.push key priority).map (fun s2 => (r.1, s2))

/-- Sequential pushes of a list of (key, priority) pairs, stopping at the
first error. -/
def pushList : MinQueue → List (Nat × Nat) → Except JsError MinQueue
  | s, [] => .ok s
  | s, e :: l =>
    match s.push e.1 e.2 with
    | .ok s' => pushList s' l
    | .error err => .error err

/-- The priorities of successively popped elements: before each `pop`, the
popped element's stored priority is observed with `peekPriority` (after
resolution it is exactly the root priority that `pop` removes). -/
def popSeq : MinQueue → Nat → List Nat
  | _, 0 => []
  | s, fuel + 1 =>
    if s.length = 0 then []
    else
      let pr := s.peekPriority
      let po := pr.2.pop
      pr.1 :: popSeq po.2 fuel

/-- Min-heap order on the occupied positions `1..n` of a priority array:
every occupied index `i` above the root satisfies
`priorities[i >>> 1] ≤ priorities[i]`. -/
def heapOrd (p : Nat → Nat) (n : Nat) : Prop :=
  ∀ i, 2 ≤ i → i ≤ n → p (i / 2) ≤ p i

/-- Highest occupied physical position: `length` normally, `length + 1` while
a deletion is pending (the root slot is then logically dead but the physical
layout 1..length+1 still holds the data that the next resolution reuses). -/
def MinQueue.liveBound (s : MinQueue) : Nat :=
  if s._hasPoppedElement then s.length + 1 else s.length

/-- The heap invariant of a queue state. -/
def MinQueue.heapInv (s : MinQueue) : Prop := heapOrd s.store.prios s.liveBound

/-- Full state invariant: heap order on the occupied positions, the length
within capacity, and — whenever a deletion is pending — strictly below it
(so position `length + 1` is within the backing arrays). -/
def MinQueue.WF (s : MinQueue) : Prop :=
  s.heapInv ∧ s.length ≤ s._capacity ∧ (s._hasPoppedElement = true → s.length < s._capacity)

/-- The positions `a, a+1, ..., a+n-1`. -/
def posList (a n : Nat) : List Nat := (List.range n).map (fun t => t + a)

/-- The stored (key, priority) pairs at positions `a..a+n-1`, in raw physical
order. -/
def Store.entriesFrom (st : Store) (a n : Nat) : List (Nat × Nat) :=
  (posList a n).map st.get

/-- The live logical content of a queue: positions `1..length` normally, and
positions `2..length+1` while a deletion is pending (the root slot is dead;
the element that will be moved into it on resolution sits at `length + 1`). -/
def MinQueue.live (s : MinQueue) : List (Nat × Nat) :=
  if s._hasPoppedElement then s.store.entriesFrom 2 s.length
  else s.store.entriesFrom 1 s.length

/-- The (key, priority) pairs as the `Uint32Array` stores them. -/
def modPairs (ks ps : List Nat) : List (Nat × Nat) :=
  (ks.zip ps).map (fun e => (e.1 % u32, e.2 % u32))

/-- The states reachable through the public interface: construction, `push`,
`pop`, the pending-deletion resolution performed by `peek`, `peekPriority`
and `dumpRawPriorities`, and `clear`. -/
inductive Reachable : MinQueue → Prop where
  | init : ∀ c ks ps s, MinQueue.new c ks ps = .ok s → Reachable s
  | push : ∀ s k p s', Reachable s → MinQueue.push s k p = .ok s' → Reachable s'
  | pop : ∀ s, Reachable s → Reachable (MinQueue.pop s).2
  | resolve : ∀ s, Reachable s → Reachable s.removePoppedElement
  | clear : ∀ s, Reachable s → Reachable s.clear

/-! The subtree (descendant) relation on 1-based heap indices: `desc i j`
means position `j` lies in the subtree rooted at position `i`, i.e. some
number of parent steps `j ↦ j / 2` leads from `j` to `i`. -/

def desc (i j : Nat) : Prop := ∃ d, j / 2 ^ d = i

/-- All heap edges whose parent is at position `≥ i` are in order. -/
def heapBelow (st : Store) (n i : Nat) : Prop :=
  ∀ j, 2 ≤ j → j ≤ n → i ≤ j / 2 → st.prios (j / 2) ≤ st.prios j

/-- Unwrap a constructor or `push` result known to succeed (used only to
name concrete example states below). -/
def okD : Except JsError MinQueue → MinQueue
  | .ok s => s
  | .error _ => ⟨0, ⟨fun _ => 0, fun _ => 0⟩, 0, false⟩

/-- A fresh empty queue of capacity 64. -/
def qEmpty64 : MinQueue := okD (MinQueue.new 64 [] [])

/-- A fresh empty queue of capacity 2. -/
def qTwoCap : MinQueue := okD (MinQueue.new 2 [] [])

/-- Capacity 2, one element (key 1, priority 5). -/
def qOne : MinQueue := okD (qTwoCap.push 1 5)

/-- Capacity 2 at full capacity (keys 1, 2; priorities 5, 6). -/
def qFull : MinQueue := okD (qOne.push 2 6)

/-- Capacity 2 with a pending deletion (after pushing one element and popping
it). -/
def qPend : MinQueue := (qOne.pop).2

/-! Basic lemmas about `upd` and `Store`. -/

@[simp] theorem upd_apply (f : Nat → Nat) (i v j : Nat) :
    upd f i v j = if j = i then v else f j := rfl

theorem upd_same (f : Nat → Nat) (i v : Nat) : upd f i v i = v := by simp [upd]

theorem upd_ne (f : Nat → Nat) (i v : Nat) {j : Nat} (h : j ≠ i) : upd f i v j = f j := by
  simp [upd, h]

@[simp] theorem Store.prios_set (st : Store) (i : Nat) (e : Nat × Nat) (j : Nat) :
    (st.set i e).prios j = if j = i then e.2 else st.prios j := rfl

@[simp] theorem Store.keys_set (st : Store) (i : Nat) (e : Nat × Nat) (j : Nat) :
    (st.set i e).keys j = if j = i then e.1 else st.keys j := rfl

theorem Store.get_set (st : Store) (i : Nat) (e : Nat × Nat) (j : Nat) :
    (st.set i e).get j = if j = i then e else st.get j := by
  by_cases h : j = i <;> simp [Store.get, h]

theorem Store.get_set_same (st : Store) (i : Nat) (e : Nat × Nat) :
    (st.set i e).get i = e := by simp [Store.get_set]

theorem Store.get_set_ne (st : Store) (i : Nat) (e : Nat × Nat) {j : Nat} (h : j ≠ i) :
    (st.set i e).get j = st.get j := by simp [Store.get_set, h]

theorem Store.set_get_self (st : Store) (i : Nat) : st.set i (st.get i) = st := by
  cases st with
  | mk k p =>
    simp only [Store.set, Store.get]
    congr 1 <;> funext j <;> by_cases h : j = i <;> simp [upd, h]

theorem desc_refl (i : Nat) : desc i i := ⟨0, by simp⟩

theorem desc_le {i j : Nat} (h : desc i j) : i ≤ j := by
  obtain ⟨d, rfl⟩ := h
  exact Nat.div_le_self j (2 ^ d)

theorem desc_of_desc_parent {i j : Nat} (h : desc i (j / 2)) : desc i j := by
  obtain ⟨d, hd⟩ := h
  exact ⟨d + 1, by rw [pow_succ, mul_comm, ← Nat.div_div_eq_div_mul, hd]⟩

theorem desc_parent {i j : Nat} (h : desc i j) (hne : j ≠ i) : desc i (j / 2) := by
  obtain ⟨d, hd⟩ := h
  cases d with
  | zero => exact absurd (by simpa using hd) hne
  | succ d =>
    refine ⟨d, ?_⟩
    rw [Nat.div_div_eq_div_mul, mul_comm, ← pow_succ, hd]

theorem desc_one {j : Nat} (h : 1 ≤ j) : desc 1 j := by
  induction j using Nat.strong_induction_on with
  | _ j ih =>
    rcases Nat.lt_or_ge j 2 with hj | hj
    · interval_cases j
      · exact desc_refl 1
    · exact desc_of_desc_parent (ih (j / 2) (Nat.div_lt_self (by omega) one_lt_two)
        (by omega))

theorem not_desc_parent_self {i : Nat} (h : 1 ≤ i) : ¬ desc i (i / 2) := fun hd =>
  absurd (desc_le hd) (by omega)

theorem desc_two_mul_le {i j : Nat} (h : desc i j) (hne : j ≠ i) : 2 * i ≤ j := by
  have := desc_le (desc_parent h hne)
  omega

theorem desc_child {i m c : Nat} (hm : desc i m) (hc : c / 2 = m) : desc i c :=
  desc_of_desc_parent (hc ▸ hm)

/-! Lemmas about `posList` and `Store.entriesFrom`. -/

theorem mem_posList {a n j : Nat} : j ∈ posList a n ↔ a ≤ j ∧ j < a + n := by
  simp only [posList, List.mem_map, List.mem_range]
  constructor
  · rintro ⟨t, ht, rfl⟩; omega
  · rintro ⟨h1, h2⟩; exact ⟨j - a, by omega, by omega⟩

theorem nodup_posList (a n : Nat) : (posList a n).Nodup :=
  (List.nodup_range n).map (fun x y h => by omega)

theorem posList_succ_left (a n : Nat) : posList a (n + 1) = a :: posList (a + 1) n := by
  simp only [posList, List.range_succ_eq_map, List.map_cons, List.map_map, Nat.zero_add]
  congr 1
  apply List.map_congr_left
  intro t _
  simp only [Function.comp_apply]
  omega

theorem posList_succ_right (a n : Nat) : posList a (n + 1) = posList a n ++ [n + a] := by
  simp [posList, List.range_succ]

theorem entriesFrom_congr {st st' : Store} {a n : Nat}
    (h : ∀ j, a ≤ j → j < a + n → st.get j = st'.get j) :
    st.entriesFrom a n = st'.entriesFrom a n := by
  unfold Store.entriesFrom
  exact List.map_congr_left fun j hj => h j (mem_posList.mp hj).1 (mem_posList.mp hj).2

theorem entriesFrom_succ_left (st : Store) (a n : Nat) :
    st.entriesFrom a (n + 1) = st.get a :: st.entriesFrom (a + 1) n := by
  simp [Store.entriesFrom, posList_succ_left]

theorem entriesFrom_succ_right (st : Store) (a n : Nat) :
    st.entriesFrom a (n + 1) = st.entriesFrom a n ++ [st.get (n + a)] := by
  simp [Store.entriesFrom, posList_succ_right]

theorem mem_entriesFrom {st : Store} {a n : Nat} {e : Nat × Nat} :
    e ∈ st.entriesFrom a n ↔ ∃ j, a ≤ j ∧ j < a + n ∧ e = st.get j := by
  simp only [Store.entriesFrom, List.mem_map]
  constructor
  · rintro ⟨j, hj, rfl⟩; exact ⟨j, (mem_posList.mp hj).1, (mem_posList.mp hj).2, rfl⟩
  · rintro ⟨j, h1, h2, rfl⟩; exact ⟨j, mem_posList.mpr ⟨h1, h2⟩, rfl⟩

/-- Swapping the values of a function at two positions of a duplicate-free
list permutes its image. -/
theorem map_swap_perm {α β : Type} [DecidableEq α] (f g : α → β) (l : List α)
    (hnd : l.Nodup) (a b : α) (ha : a ∈ l) (hb : b ∈ l) (hab : a ≠ b)
    (hfg : ∀ x ∈ l, x ≠ a → x ≠ b → f x = g x)
    (h1 : f a = g b) (h2 : f b = g a) : (l.map f).Perm (l.map g) := by
  have hb' : b ∈ l.erase a := (List.mem_erase_of_ne hab.symm).mpr hb
  have hp : (l.map f).Perm (f a :: f b :: ((l.erase a).erase b).map f) := by
    have p1 := (List.perm_cons_erase ha).map f
    have p2 := ((List.perm_cons_erase hb').map f).cons (f a)
    simpa using p1.trans p2
  have hq : (l.map g).Perm (g a :: g b :: ((l.erase a).erase b).map g) := by
    have q1 := (List.perm_cons_erase ha).map g
    have q2 := ((List.perm_cons_erase hb').map g).cons (g a)
    simpa using q1.trans q2
  have hLeq : ((l.erase a).erase b).map f = ((l.erase a).erase b).map g := by
    apply List.map_congr_left
    intro x hx
    have hxb : x ≠ b := ((hnd.erase a).mem_erase_iff.mp hx).1
    have hxa : x ≠ a := (hnd.mem_erase_iff.mp (List.mem_of_mem_erase hx)).1
    exact hfg x (List.mem_of_mem_erase (List.mem_of_mem_erase hx)) hxa hxb
  refine hp.trans (List.Perm.trans ?_ hq.symm)
  rw [h1, h2, hLeq]
  exact List.Perm.swap _ _ _

/-! Correctness of the bubble-up walk.  Loop invariant: the held pair `e` has
been hoisted out of position `i` (the "hole"); all heap edges except those
touching the hole are in order (`h1`), the held priority is below the hole's
children (`h2`), and the hole's parent is below the hole's children (`h3`). -/

theorem bubbleUpLoop_heapOrd (n : Nat) (e : Nat × Nat) :
    ∀ fuel st i, 1 ≤ i → i ≤ fuel → i ≤ n →
    (∀ j, 2 ≤ j → j ≤ n → j ≠ i → st.prios (j / 2) ≤ st.prios j) →
    (∀ c, c / 2 = i → c ≤ n → e.2 ≤ st.prios c) →
    (2 ≤ i → ∀ c, c / 2 = i → c ≤ n → st.prios (i / 2) ≤ st.prios c) →
    heapOrd (bubbleUpLoop fuel st e i).prios n := by
  intro fuel
  induction fuel with
  | zero => intro st i h1 h2 _ _ _ _; omega
  | succ fuel ih =>
    intro st i hi1 hifuel hin h1 h2 h3
    simp only [bubbleUpLoop]
    by_cases hc : 1 < i ∧ e.2 < st.prios (i / 2)
    · rw [if_pos hc]
      obtain ⟨hi2, hlt⟩ := hc
      have hset : ∀ j, (st.set i (st.get (i / 2))).prios j =
          if j = i then st.prios (i / 2) else st.prios j := fun j => rfl
      refine ih _ (i / 2) (by omega) (by omega) (by omega) ?_ ?_ ?_
      · intro j hj2 hjn hji2
        rw [hset, hset]
        by_cases hji : j = i
        · subst hji
          rw [if_neg (by omega : j / 2 ≠ j), if_pos rfl]
        · by_cases hpj : j / 2 = i
          · rw [if_pos hpj, if_neg hji]
            exact h3 (by omega) j hpj hjn
          · rw [if_neg hpj, if_neg hji]
            exact h1 j hj2 hjn hji
      · intro c hc2 hcn
        rw [hset]
        by_cases hci : c = i
        · rw [if_pos hci]
          exact Nat.le_of_lt hlt
        · rw [if_neg hci]
          have := h1 c (by omega) hcn hci
          rw [hc2] at this
          omega
      · intro hq c hc2 hcn
        have hne : i / 2 / 2 ≠ i := by omega
        rw [hset, hset, if_neg hne]
        have base := h1 (i / 2) (by omega) (by omega) (by omega)
        by_cases hci : c = i
        · rw [if_pos hci]
          exact base
        · rw [if_neg hci]
          have step := h1 c (by omega) hcn hci
          rw [hc2] at step
          omega
    · rw [if_neg hc]
      intro j hj2 hjn
      have hset : ∀ m, (st.set i e).prios m = if m = i then e.2 else st.prios m :=
        fun m => rfl
      rw [hset, hset]
      by_cases hji : j = i
      · subst hji
        rw [if_neg (by omega : j / 2 ≠ j), if_pos rfl]
        have : ¬ e.2 < st.prios (j / 2) := fun hlt => hc ⟨by omega, hlt⟩
        omega
      · by_cases hpj : j / 2 = i
        · rw [if_pos hpj, if_neg hji]
          exact h2 j hpj hjn
        · rw [if_neg hpj, if_neg hji]
          exact h1 j hj2 hjn hji

theorem bubbleUpLoop_perm (n : Nat) (e : Nat × Nat) :
    ∀ fuel st i, 1 ≤ i → i ≤ fuel → i ≤ n →
    ((bubbleUpLoop fuel st e i).entriesFrom 1 n).Perm ((st.set i e).entriesFrom 1 n) := by
  intro fuel
  induction fuel with
  | zero => intro st i h1 h2 _; omega
  | succ fuel ih =>
    intro st i hi1 hifuel hin
    simp only [bubbleUpLoop]
    by_cases hc : 1 < i ∧ e.2 < st.prios (i / 2)
    · rw [if_pos hc]
      refine (ih _ (i / 2) (by omega) (by omega) (by omega)).trans ?_
      unfold Store.entriesFrom
      refine map_swap_perm _ _ _ (nodup_posList 1 n) (i / 2) i
        (mem_posList.mpr (by omega)) (mem_posList.mpr (by omega)) (by omega) ?_ ?_ ?_
      · intro x _ hx1 hx2
        rw [Store.get_set_ne _ _ _ hx1, Store.get_set_ne _ _ _ hx2,
          Store.get_set_ne _ _ _ hx2]
      · rw [Store.get_set_same, Store.get_set_same]
      · have h1 : (i : Nat) ≠ i / 2 := by omega
        rw [Store.get_set_ne _ _ _ h1, Store.get_set_same,
          Store.get_set_ne _ _ _ (by omega : i / 2 ≠ i)]
    · rw [if_neg hc]

/-- Positions above `L` do not affect heap order on `1..L`. -/
theorem heapOrd_set_above {st : Store} {L : Nat} (h : heapOrd st.prios L) {m : Nat}
    (hm : L < m) (e : Nat × Nat) : heapOrd (st.set m e).prios L := by
  intro j hj2 hjL
  have e1 : (st.set m e).prios (j / 2) = st.prios (j / 2) := by
    simp only [Store.prios_set]; rw [if_neg (by omega)]
  have e2 : (st.set m e).prios j = st.prios j := by
    simp only [Store.prios_set]; rw [if_neg (by omega)]
  rw [e1, e2]
  exact h j hj2 hjL

/-- Appending at position `L + 1` and bubbling up from there restores heap
order on `1..L+1` (the shape `push` uses in the non-pending branch). -/
theorem bubbleUp_append_heapOrd {st : Store} {L : Nat} (h : heapOrd st.prios L) :
    heapOrd (Store.bubbleUp st (L + 1)).prios (L + 1) := by
  unfold Store.bubbleUp
  refine bubbleUpLoop_heapOrd (L + 1) (st.get (L + 1)) (L + 1) st (L + 1)
    (by omega) (by omega) (by omega) ?_ (by omega) (by omega)
  intro j hj2 hjn hji
  exact h j hj2 (by omega)

theorem bubbleUp_perm (st : Store) {i n : Nat} (hi : 1 ≤ i) (hin : i ≤ n) :
    ((Store.bubbleUp st i).entriesFrom 1 n).Perm (st.entriesFrom 1 n) := by
  unfold Store.bubbleUp
  have := bubbleUpLoop_perm n (st.get i) i st i hi (Nat.le_refl i) hin
  rwa [Store.set_get_self] at this

/-! Correctness of the bubble-down walk.  Loop invariants, with `i` the
starting index and `m` the current index (the "hole" the held pair `e` was
hoisted out of): all heap edges inside the subtree of `i` are in order except
those leaving the hole (`J1`); once the hole has moved below `i`, the hole's
parent is bounded by the held priority (`J2`) and by the hole's children
(`J3`). -/

theorem bd_write_heapOrd (n : Nat) (e : Nat × Nat) (i : Nat) (hi : 1 ≤ i) (st : Store)
    (m : Nat) (hdm : desc i m)
    (J1 : ∀ j, 2 ≤ j → j ≤ n → desc i (j / 2) → j / 2 ≠ m → st.prios (j / 2) ≤ st.prios j)
    (J2 : m ≠ i → st.prios (m / 2) ≤ e.2)
    (hch : ∀ c, c / 2 = m → c ≤ n → e.2 ≤ st.prios c) :
    ∀ j, 2 ≤ j → j ≤ n → desc i (j / 2) →
      (st.set m e).prios (j / 2) ≤ (st.set m e).prios j := by
  intro j hj2 hjn hdj
  have hset : ∀ x, (st.set m e).prios x = if x = m then e.2 else st.prios x := fun x => rfl
  rw [hset, hset]
  by_cases hjm : j = m
  · subst hjm
    by_cases hmi : j = i
    · subst hmi
      exact absurd hdj (not_desc_parent_self hi)
    · rw [if_neg (by omega : j / 2 ≠ j), if_pos rfl]
      exact J2 hmi
  · by_cases hpj : j / 2 = m
    · rw [if_pos hpj, if_neg hjm]
      exact hch j hpj hjn
    · rw [if_neg hpj, if_neg hjm]
      exact J1 j hj2 hjn hdj hpj

/-- One round of the bubble-down loop, for the chosen child `ci` (`hmin` says
it has the smallest priority among the live children of the hole `m`). -/
theorem bd_step (n : Nat) (e : Nat × Nat) (i : Nat) (hi : 1 ≤ i) (fuel : Nat) (st : Store)
    (m : Nat) (hm : 1 ≤ m) (hdm : desc i m) (hfb : 1 + n / 2 ≤ (fuel + 1) + m)
    (J1 : ∀ j, 2 ≤ j → j ≤ n → desc i (j / 2) → j / 2 ≠ m → st.prios (j / 2) ≤ st.prios j)
    (J2 : m ≠ i → st.prios (m / 2) ≤ e.2)
    (J3 : m ≠ i → ∀ c, c / 2 = m → c ≤ n → st.prios (m / 2) ≤ st.prios c)
    (ih : ∀ st m, 1 ≤ m → desc i m → 1 + n / 2 ≤ fuel + m →
      (∀ j, 2 ≤ j → j ≤ n → desc i (j / 2) → j / 2 ≠ m → st.prios (j / 2) ≤ st.prios j) →
      (m ≠ i → st.prios (m / 2) ≤ e.2) →
      (m ≠ i → ∀ c, c / 2 = m → c ≤ n → st.prios (m / 2) ≤ st.prios c) →
      (∀ j, 2 ≤ j → j ≤ n → desc i (j / 2) →
          (bubbleDownLoop fuel st (1 + n / 2) (n + 1) e m).prios (j / 2) ≤
            (bubbleDownLoop fuel st (1 + n / 2) (n + 1) e m).prios j) ∧
      (∀ j, ¬ desc i j → (bubbleDownLoop fuel st (1 + n / 2) (n + 1) e m).get j = st.get j))
    (ci : Nat) (hci2 : ci / 2 = m) (hcin : ci ≤ n)
    (hmin : ∀ c, c / 2 = m → c ≤ n → st.prios ci ≤ st.prios c) :
    (∀ j, 2 ≤ j → j ≤ n → desc i (j / 2) →
        (if e.2 ≤ st.prios ci then st.set m e
          else bubbleDownLoop fuel (st.set m (st.get ci)) (1 + n / 2) (n + 1) e ci).prios
            (j / 2) ≤
          (if e.2 ≤ st.prios ci then st.set m e
            else bubbleDownLoop fuel (st.set m (st.get ci)) (1 + n / 2) (n + 1) e ci).prios
            j) ∧
    (∀ j, ¬ desc i j →
        (if e.2 ≤ st.prios ci then st.set m e
          else bubbleDownLoop fuel (st.set m (st.get ci)) (1 + n / 2) (n + 1) e ci).get j =
          st.get j) := by
  by_cases hstop : e.2 ≤ st.prios ci
  · rw [if_pos hstop]
    constructor
    · exact bd_write_heapOrd n e i hi st m hdm J1 J2
        (fun c hc hcn => le_trans hstop (hmin c hc hcn))
    · intro j hj
      exact Store.get_set_ne _ _ _ (fun h => hj (h ▸ hdm))
  · rw [if_neg hstop]
    have hlt : st.prios ci < e.2 := by omega
    have hone : 1 ≤ ci := by omega
    have hcm : ci ≠ m := by omega
    have hd : desc i ci := desc_child hdm hci2
    have hfb' : 1 + n / 2 ≤ fuel + ci := by omega
    have hset : ∀ x, (st.set m (st.get ci)).prios x =
        if x = m then st.prios ci else st.prios x := fun x => rfl
    have J1' : ∀ j, 2 ≤ j → j ≤ n → desc i (j / 2) → j / 2 ≠ ci →
        (st.set m (st.get ci)).prios (j / 2) ≤ (st.set m (st.get ci)).prios j := by
      intro j hj2 hjn hdj hjci
      rw [hset, hset]
      by_cases hjc : j = ci
      · subst hjc
        rw [if_pos hci2, if_neg hcm]
      · by_cases hpj : j / 2 = m
        · rw [if_pos hpj, if_neg (show j ≠ m by omega)]
          exact hmin j hpj hjn
        · by_cases hjm : j = m
          · subst hjm
            by_cases hmi : j = i
            · subst hmi
              exact absurd hdj (not_desc_parent_self hi)
            · rw [if_neg hpj, if_pos rfl]
              exact J3 hmi ci hci2 hcin
          · rw [if_neg hpj, if_neg hjm]
            exact J1 j hj2 hjn hdj hpj
    have J2' : ci ≠ i → (st.set m (st.get ci)).prios (ci / 2) ≤ e.2 := by
      intro _
      rw [hset, if_pos hci2]
      exact Nat.le_of_lt hlt
    have J3' : ci ≠ i → ∀ g, g / 2 = ci → g ≤ n →
        (st.set m (st.get ci)).prios (ci / 2) ≤ (st.set m (st.get ci)).prios g := by
      intro _ g hg2 hgn
      rw [hset, hset, if_pos hci2, if_neg (show g ≠ m by omega)]
      have := J1 g (by omega) hgn (by rw [hg2]; exact hd) (by omega)
      rw [hg2] at this
      exact this
    obtain ⟨ha, hb⟩ := ih (st.set m (st.get ci)) ci hone hd hfb' J1' J2' J3'
    refine ⟨ha, ?_⟩
    intro j hj
    rw [hb j hj]
    exact Store.get_set_ne _ _ _ (fun h => hj (h ▸ hdm))

theorem bubbleDownLoop_main (n : Nat) (e : Nat × Nat) (i : Nat) (hi : 1 ≤ i) :
    ∀ fuel st m, 1 ≤ m → desc i m → 1 + n / 2 ≤ fuel + m →
    (∀ j, 2 ≤ j → j ≤ n → desc i (j / 2) → j / 2 ≠ m → st.prios (j / 2) ≤ st.prios j) →
    (m ≠ i → st.prios (m / 2) ≤ e.2) →
    (m ≠ i → ∀ c, c / 2 = m → c ≤ n → st.prios (m / 2) ≤ st.prios c) →
    (∀ j, 2 ≤ j → j ≤ n → desc i (j / 2) →
        (bubbleDownLoop fuel st (1 + n / 2) (n + 1) e m).prios (j / 2) ≤
          (bubbleDownLoop fuel st (1 + n / 2) (n + 1) e m).prios j) ∧
    (∀ j, ¬ desc i j → (bubbleDownLoop fuel st (1 + n / 2) (n + 1) e m).get j = st.get j) := by
  intro fuel
  induction fuel with
  | zero =>
    intro st m hm hdm hfb J1 J2 J3
    -- out of fuel only when the loop guard is already false: no live children
    have hch : ∀ c, c / 2 = m → c ≤ n → e.2 ≤ st.prios c := by
      intro c hc hcn; omega
    constructor
    · exact bd_write_heapOrd n e i hi st m hdm J1 J2 hch
    · intro j hj
      have : j ≠ m := fun h => hj (h ▸ hdm)
      exact Store.get_set_ne _ _ _ this
  | succ fuel ih =>
    intro st m hm hdm hfb J1 J2 J3
    simp only [bubbleDownLoop]
    by_cases hg : m < 1 + n / 2
    · rw [if_pos hg]
      have hln : 2 * m ≤ n := by omega
      by_cases hC : 2 * m + 1 < n + 1 ∧ st.prios (2 * m + 1) < st.prios (2 * m)
      · rw [if_pos hC]
        -- the right child is chosen
        have hci2 : (2 * m + 1) / 2 = m := by omega
        have hcin : 2 * m + 1 ≤ n := by omega
        have hmin : ∀ c, c / 2 = m → c ≤ n → st.prios (2 * m + 1) ≤ st.prios c := by
          intro c hc hcn
          have : c = 2 * m ∨ c = 2 * m + 1 := by omega
          rcases this with h | h <;> subst h
          · exact Nat.le_of_lt hC.2
          · exact Nat.le_refl _
        exact bd_step n e i hi fuel st m hm hdm hfb J1 J2 J3 ih (2 * m + 1) hci2 hcin hmin
      · rw [if_neg hC]
        have hci2 : (2 * m) / 2 = m := by omega
        have hmin : ∀ c, c / 2 = m → c ≤ n → st.prios (2 * m) ≤ st.prios c := by
          intro c hc hcn
          have : c = 2 * m ∨ c = 2 * m + 1 := by omega
          rcases this with h | h <;> subst h
          · exact Nat.le_refl _
          · have : ¬ st.prios (2 * m + 1) < st.prios (2 * m) := fun hlt =>
              hC ⟨by omega, hlt⟩
            omega
        exact bd_step n e i hi fuel st m hm hdm hfb J1 J2 J3 ih (2 * m) hci2 hln hmin
    · rw [if_neg hg]
      have hch : ∀ c, c / 2 = m → c ≤ n → e.2 ≤ st.prios c := by
        intro c hc hcn; omega
      constructor
      · exact bd_write_heapOrd n e i hi st m hdm J1 J2 hch
      · intro j hj
        have : j ≠ m := fun h => hj (h ▸ hdm)
        exact Store.get_set_ne _ _ _ this

/-- One round of the bubble-down loop permutes the entries (stop case is
trivial; a descend swaps the hole `m` with the chosen child `ci`). -/
theorem bd_step_perm (n : Nat) (e : Nat × Nat) (fuel : Nat) (st : Store) (m : Nat)
    (hm : 1 ≤ m) (hmn : m ≤ n)
    (ih : ∀ st m, 1 ≤ m → m ≤ n →
      ((bubbleDownLoop fuel st (1 + n / 2) (n + 1) e m).entriesFrom 1 n).Perm
        ((st.set m e).entriesFrom 1 n))
    (ci : Nat) (hci2 : ci / 2 = m) (hcin : ci ≤ n) :
    ((if e.2 ≤ st.prios ci then st.set m e
      else bubbleDownLoop fuel (st.set m (st.get ci)) (1 + n / 2) (n + 1) e ci).entriesFrom
        1 n).Perm ((st.set m e).entriesFrom 1 n) := by
  by_cases hstop : e.2 ≤ st.prios ci
  · rw [if_pos hstop]
  · rw [if_neg hstop]
    have hone : 1 ≤ ci := by omega
    have hcm : ci ≠ m := by omega
    refine (ih (st.set m (st.get ci)) ci hone hcin).trans ?_
    unfold Store.entriesFrom
    refine map_swap_perm _ _ _ (nodup_posList 1 n) m ci
      (mem_posList.mpr (by omega)) (mem_posList.mpr (by omega)) (by omega) ?_ ?_ ?_
    · intro x _ hx1 hx2
      rw [Store.get_set_ne _ _ _ hx2, Store.get_set_ne _ _ _ hx1,
        Store.get_set_ne _ _ _ hx1]
    · rw [Store.get_set_ne _ _ _ (show m ≠ ci from fun h => hcm h.symm),
        Store.get_set_same, Store.get_set_ne _ _ _ hcm]
    · rw [Store.get_set_same, Store.get_set_same]

theorem bubbleDownLoop_perm (n : Nat) (e : Nat × Nat) :
    ∀ fuel st m, 1 ≤ m → m ≤ n →
    ((bubbleDownLoop fuel st (1 + n / 2) (n + 1) e m).entriesFrom 1 n).Perm
      ((st.set m e).entriesFrom 1 n) := by
  intro fuel
  induction fuel with
  | zero =>
    intro st m _ _
    simp only [bubbleDownLoop]
    exact List.Perm.refl _
  | succ fuel ih =>
    intro st m hm hmn
    simp only [bubbleDownLoop]
    by_cases hg : m < 1 + n / 2
    · rw [if_pos hg]
      by_cases hC : 2 * m + 1 < n + 1 ∧ st.prios (2 * m + 1) < st.prios (2 * m)
      · rw [if_pos hC]
        exact bd_step_perm n e fuel st m hm hmn ih (2 * m + 1) (by omega) (by omega)
      · rw [if_neg hC]
        exact bd_step_perm n e fuel st m hm hmn ih (2 * m) (by omega) (by omega)
    · rw [if_neg hg]

/-- `bubbleDown(i)` repairs all heap edges inside the subtree of `i` — the
edges strictly inside must be in order beforehand — and touches nothing
outside the subtree. -/
theorem bubbleDown_subtree (st : Store) (n i : Nat) (hi : 1 ≤ i)
    (H : ∀ j, 2 ≤ j → j ≤ n → desc i (j / 2) → j / 2 ≠ i → st.prios (j / 2) ≤ st.prios j) :
    (∀ j, 2 ≤ j → j ≤ n → desc i (j / 2) →
      (st.bubbleDown n i).prios (j / 2) ≤ (st.bubbleDown n i).prios j) ∧
    (∀ j, ¬ desc i j → (st.bubbleDown n i).get j = st.get j) := by
  unfold Store.bubbleDown
  exact bubbleDownLoop_main n (st.get i) i hi (1 + n / 2) st i hi (desc_refl i) (by omega)
    H (fun h => absurd rfl h) (fun h => absurd rfl h)

/-- `bubbleDown(ROOT_INDEX)` restores heap order on `1..n` when only the root
edges may be out of order ("heap except the root"). -/
theorem bubbleDown_root_heapOrd (st : Store) (n : Nat)
    (H : ∀ j, 2 ≤ j → j ≤ n → j / 2 ≠ 1 → st.prios (j / 2) ≤ st.prios j) :
    heapOrd (st.bubbleDown n 1).prios n := by
  intro j hj2 hjn
  refine (bubbleDown_subtree st n 1 (by omega) ?_).1 j hj2 hjn (desc_one (by omega))
  intro j hj2 hjn _ hne
  exact H j hj2 hjn hne

theorem bubbleDown_perm (st : Store) {n m : Nat} (hm : 1 ≤ m) (hmn : m ≤ n) :
    ((st.bubbleDown n m).entriesFrom 1 n).Perm (st.entriesFrom 1 n) := by
  unfold Store.bubbleDown
  have h := bubbleDownLoop_perm n (st.get m) (1 + n / 2) st m hm hmn
  rwa [Store.set_get_self] at h

/-- `bubbleDown(ROOT_INDEX)` on an empty live range is the identity. -/
theorem bubbleDown_zero (st : Store) : st.bubbleDown 0 1 = st := by
  simp [Store.bubbleDown, bubbleDownLoop, Store.set_get_self]

/-! The constructor's bottom-up heapify. -/

theorem heapBelow_init (st : Store) (n : Nat) : heapBelow st n (n / 2 + 1) :=
  fun j hj2 hjn hij => absurd hij (by omega)

theorem heapOrd_of_heapBelow {st : Store} {n : Nat} (h : heapBelow st n 1) :
    heapOrd st.prios n :=
  fun j hj2 hjn => h j hj2 hjn (by omega)

theorem heapifyFrom_heapBelow (n : Nat) :
    ∀ i st, heapBelow st n (i + 1) → heapBelow (heapifyFrom st n i) n 1 := by
  intro i
  induction i with
  | zero => intro st h; exact h
  | succ i ih =>
    intro st h
    show heapBelow (heapifyFrom (st.bubbleDown n (i + 1)) n i) n 1
    apply ih
    have H : ∀ j, 2 ≤ j → j ≤ n → desc (i + 1) (j / 2) → j / 2 ≠ i + 1 →
        st.prios (j / 2) ≤ st.prios j := by
      intro j hj2 hjn hdj hne
      exact h j hj2 hjn (by have := desc_two_mul_le hdj hne; omega)
    obtain ⟨ha, hb⟩ := bubbleDown_subtree st n (i + 1) (by omega) H
    intro j hj2 hjn hij
    by_cases hdj : desc (i + 1) (j / 2)
    · exact ha j hj2 hjn hdj
    · have hjd : ¬ desc (i + 1) j := by
        intro hd
        have hne : j ≠ i + 1 := by intro hh; omega
        exact hdj (desc_parent hd hne)
      have e1 : (st.bubbleDown n (i + 1)).prios (j / 2) = st.prios (j / 2) :=
        congrArg Prod.snd (hb (j / 2) hdj)
      have e2 : (st.bubbleDown n (i + 1)).prios j = st.prios j :=
        congrArg Prod.snd (hb j hjd)
      rw [e1, e2]
      refine h j hj2 hjn ?_
      have : j / 2 ≠ i + 1 := fun hh => hdj (hh ▸ desc_refl (i + 1))
      omega

theorem heapifyFrom_perm (n : Nat) :
    ∀ i st, 2 * i ≤ n → ((heapifyFrom st n i).entriesFrom 1 n).Perm (st.entriesFrom 1 n) := by
  intro i
  induction i with
  | zero => intro st _; exact List.Perm.refl _
  | succ i ih =>
    intro st h
    exact (ih (st.bubbleDown n (i + 1)) (by omega)).trans
      (bubbleDown_perm st (by omega) (by omega))

/-- The constructor's heapify pass restores heap order from scratch. -/
theorem heapifyFrom_heapOrd (st : Store) (n : Nat) :
    heapOrd (heapifyFrom st n (n / 2)).prios n :=
  heapOrd_of_heapBelow (heapifyFrom_heapBelow n (n / 2) st (heapBelow_init st n))

/-! The constructor's copy loop. -/

theorem copyIn_get_low : ∀ ks ps st i j, j ≤ i → (copyIn st ks ps i).get j = st.get j := by
  intro ks
  induction ks with
  | nil => intro ps st i j _; cases ps <;> rfl
  | cons k ks ih =>
    intro ps st i j h
    cases ps with
    | nil => rfl
    | cons p ps =>
      show (copyIn (st.set (i + 1) (k % u32, p % u32)) ks ps (i + 1)).get j = st.get j
      rw [ih ps _ (i + 1) j (by omega)]
      exact Store.get_set_ne _ _ _ (by omega)

theorem copyIn_entries : ∀ ks ps st i, ks.length = ps.length →
    (copyIn st ks ps i).entriesFrom (i + 1) ks.length = modPairs ks ps := by
  intro ks
  induction ks with
  | nil => intro ps st i _; rfl
  | cons k ks ih =>
    intro ps st i h
    cases ps with
    | nil => simp at h
    | cons p ps =>
      show (copyIn (st.set (i + 1) (k % u32, p % u32)) ks ps (i + 1)).entriesFrom
          (i + 1) (ks.length + 1) = (k % u32, p % u32) :: modPairs ks ps
      rw [entriesFrom_succ_left]
      congr 1
      · rw [copyIn_get_low ks ps _ (i + 1) (i + 1) (Nat.le_refl _)]
        exact Store.get_set_same _ _ _
      · exact ih ps _ (i + 1) (by simpa using h)

/-! Heap order puts the minimum priority at the root. -/

theorem heapOrd_root_le {p : Nat → Nat} {n : Nat} (h : heapOrd p n) :
    ∀ j, 1 ≤ j → j ≤ n → p 1 ≤ p j := by
  intro j
  induction j using Nat.strong_induction_on with
  | _ j ih =>
    intro h1 hn
    rcases Nat.lt_or_ge j 2 with hj | hj
    · interval_cases j
      exact Nat.le_refl _
    · exact le_trans (ih (j / 2) (by omega) (by omega) (by omega)) (h j hj hn)

theorem heapOrd_root_min_entries {st : Store} {n : Nat} (h : heapOrd st.prios n) :
    ∀ e ∈ st.entriesFrom 1 n, st.prios 1 ≤ e.2 := by
  intro e he
  obtain ⟨j, hj1, hj2, rfl⟩ := mem_entriesFrom.mp he
  exact heapOrd_root_le h j hj1 (by omega)

/-! Specification of `removePoppedElement`. -/

theorem removePopped_of_flag_false {s : MinQueue} (h : s._hasPoppedElement = false) :
    s.removePoppedElement = s := by
  simp [MinQueue.removePoppedElement, h]

theorem removePopped_length (s : MinQueue) : s.removePoppedElement.length = s.length := by
  unfold MinQueue.removePoppedElement
  cases hb : s._hasPoppedElement <;> simp

theorem removePopped_capacity (s : MinQueue) :
    s.removePoppedElement._capacity = s._capacity := by
  unfold MinQueue.removePoppedElement
  cases hb : s._hasPoppedElement <;> simp

theorem removePopped_flag (s : MinQueue) :
    s.removePoppedElement._hasPoppedElement = false := by
  unfold MinQueue.removePoppedElement
  cases hb : s._hasPoppedElement <;> simp [hb]

/-- Resolving a pending deletion restores heap order on `1..length` and
permutes the live content. -/
theorem removePopped_spec {s : MinQueue} (h : s.heapInv) :
    heapOrd s.removePoppedElement.store.prios s.length ∧
    (s.removePoppedElement.live).Perm s.live := by
  cases hb : s._hasPoppedElement with
  | false =>
    rw [removePopped_of_flag_false hb]
    refine ⟨?_, List.Perm.refl _⟩
    unfold MinQueue.heapInv MinQueue.liveBound at h
    rw [hb] at h
    simpa using h
  | true =>
    unfold MinQueue.heapInv MinQueue.liveBound at h
    rw [hb] at h
    simp only [if_true] at h
    have hres : s.removePoppedElement =
        { s with
          store := Store.bubbleDown (s.store.set 1 (s.store.get (s.length + 1))) s.length 1
          _hasPoppedElement := false } := by
      unfold MinQueue.removePoppedElement
      rw [hb]
      simp
    set st1 := s.store.set 1 (s.store.get (s.length + 1)) with hst1
    have hst1p : ∀ x, x ≠ 1 → st1.prios x = s.store.prios x := by
      intro x hx
      rw [hst1]
      simp only [Store.prios_set]
      rw [if_neg hx]
    have hOrd : heapOrd (st1.bubbleDown s.length 1).prios s.length := by
      apply bubbleDown_root_heapOrd
      intro j hj2 hjn hne
      rw [hst1p (j / 2) hne, hst1p j (by omega)]
      exact h j hj2 (by omega)
    constructor
    · rw [hres]
      exact hOrd
    · rw [hres]
      show ((st1.bubbleDown s.length 1).entriesFrom 1 s.length).Perm
        (if s._hasPoppedElement then s.store.entriesFrom 2 s.length
          else s.store.entriesFrom 1 s.length)
      rw [hb, if_pos rfl]
      rcases Nat.eq_zero_or_pos s.length with hL | hL
      · rw [hL]
        exact List.Perm.refl []
      · obtain ⟨L, hLe⟩ : ∃ L, s.length = L + 1 := ⟨s.length - 1, by omega⟩
        refine (bubbleDown_perm st1 (by omega) (by omega)).trans ?_
        rw [hLe, entriesFrom_succ_left, entriesFrom_succ_right]
        have h1 : st1.get 1 = s.store.get (s.length + 1) := Store.get_set_same _ _ _
        have h2 : st1.entriesFrom 2 L = s.store.entriesFrom 2 L :=
          entriesFrom_congr fun j hj _ => Store.get_set_ne _ _ _ (by omega)
        rw [h1, h2, hLe]
        have : L + 2 = L + 1 + 1 := by omega
        rw [this]
        exact (List.perm_append_singleton _ _).symm

theorem removePopped_WF {s : MinQueue} (hw : s.WF) : s.removePoppedElement.WF := by
  refine ⟨?_, ?_, ?_⟩
  · unfold MinQueue.heapInv MinQueue.liveBound
    rw [removePopped_flag]
    simp only [Bool.false_eq_true, if_false]
    rw [removePopped_length]
    exact (removePopped_spec hw.1).1
  · rw [removePopped_length, removePopped_capacity]
    exact hw.2.1
  · rw [removePopped_flag]
    intro hh
    cases hh

/-! Specification of `push`. -/

theorem push_full {s : MinQueue} (h : s.length = s._capacity) (k p : Nat) :
    s.push k p = .error .heapFull := by
  unfold MinQueue.push
  rw [if_pos h]

theorem push_spec {s : MinQueue} (hlt : s.length < s._capacity) (k p : Nat) :
    ∃ s', s.push k p = .ok s' ∧
      s'.length = s.length + 1 ∧
      s'._capacity = s._capacity ∧
      s'._hasPoppedElement = false ∧
      (s'.live).Perm ((k % u32, p % u32) :: s.live) ∧
      (s.heapInv → s'.heapInv) := by
  have hne : s.length ≠ s._capacity := by omega
  unfold MinQueue.push
  rw [if_neg hne]
  by_cases hb : s._hasPoppedElement = true
  · rw [if_pos hb]
    refine ⟨_, rfl, rfl, rfl, rfl, ?_, ?_⟩
    · show (((s.store.set 1 (k % u32, p % u32)).bubbleDown (s.length + 1) 1).entriesFrom
        1 (s.length + 1)).Perm _
      refine (bubbleDown_perm _ (by omega) (by omega)).trans ?_
      rw [entriesFrom_succ_left]
      rw [Store.get_set_same]
      have h2 : (s.store.set 1 (k % u32, p % u32)).entriesFrom 2 s.length =
          s.store.entriesFrom 2 s.length :=
        entriesFrom_congr fun j hj _ => Store.get_set_ne _ _ _ (by omega)
      rw [h2]
      unfold MinQueue.live
      rw [hb, if_pos rfl]
    · intro h
      unfold MinQueue.heapInv MinQueue.liveBound at h ⊢
      rw [hb] at h
      simp only [if_pos rfl] at h
      show heapOrd ((s.store.set 1 (k % u32, p % u32)).bubbleDown (s.length + 1) 1).prios
        (s.length + 1)
      apply bubbleDown_root_heapOrd
      intro j hj2 hjn hne2
      have e1 : (s.store.set 1 (k % u32, p % u32)).prios (j / 2) = s.store.prios (j / 2) := by
        simp only [Store.prios_set]; rw [if_neg hne2]
      have e2 : (s.store.set 1 (k % u32, p % u32)).prios j = s.store.prios j := by
        simp only [Store.prios_set]; rw [if_neg (by omega : j ≠ 1)]
      rw [e1, e2]
      exact h j hj2 hjn
  · rw [if_neg hb]
    have hbf : s._hasPoppedElement = false := by
      revert hb; cases s._hasPoppedElement <;> simp
    refine ⟨_, rfl, rfl, rfl, hbf, ?_, ?_⟩
    · simp only [MinQueue.live, hbf, Bool.false_eq_true, if_false]
      refine (bubbleUp_perm _ (by omega) (by omega)).trans ?_
      rw [entriesFrom_succ_right]
      have h2 : (s.store.set (s.length + 1) (k % u32, p % u32)).entriesFrom 1 s.length =
          s.store.entriesFrom 1 s.length :=
        entriesFrom_congr fun j _ hj => Store.get_set_ne _ _ _ (by omega)
      rw [h2, Store.get_set_same]
      exact List.perm_append_singleton _ _
    · intro h
      unfold MinQueue.heapInv MinQueue.liveBound at h
      rw [hbf] at h
      simp only [Bool.false_eq_true, if_false] at h
      show heapOrd ((s.store.set (s.length + 1) (k % u32, p % u32)).bubbleUp
          (s.length + 1)).prios
        (if s._hasPoppedElement = true then s.length + 1 + 1 else s.length + 1)
      rw [hbf]
      simp only [Bool.false_eq_true, if_false]
      exact bubbleUp_append_heapOrd (heapOrd_set_above h (by omega) _)

theorem push_ok {s s' : MinQueue} {k p : Nat} (hw : s.WF) (h : s.push k p = .ok s') :
    s'.WF ∧ s'.length = s.length + 1 ∧ s'._capacity = s._capacity ∧
    s'._hasPoppedElement = false ∧ (s'.live).Perm ((k % u32, p % u32) :: s.live) := by
  have hne : s.length ≠ s._capacity := by
    intro heq
    rw [push_full heq] at h
    cases h
  have hlt : s.length < s._capacity := by have := hw.2.1; omega
  obtain ⟨s'', heq, hlen, hcap, hflag, hperm, hinv⟩ := push_spec hlt k p
  rw [heq] at h
  injection h with h
  subst h
  refine ⟨⟨hinv hw.1, ?_, ?_⟩, hlen, hcap, hflag, hperm⟩
  · omega
  · rw [hflag]
    intro hh
    cases hh

/-! Specification of `pop`. -/

theorem pop_empty {s : MinQueue} (h : s.length = 0) : s.pop = (none, s) := by
  unfold MinQueue.pop
  rw [if_pos h]

theorem pop_spec {s : MinQueue} (hw : s.WF) (hL : 0 < s.length) :
    ∃ s2, s.pop = (some (s.removePoppedElement.store.keys 1), s2) ∧
      s2.WF ∧ s2.length = s.length - 1 ∧ s2._capacity = s._capacity ∧
      s2._hasPoppedElement = true ∧
      s2.store = s.removePoppedElement.store ∧
      (s.live).Perm (s.removePoppedElement.store.get 1 :: s2.live) ∧
      (∀ e ∈ s.live, (s.removePoppedElement.store.get 1).2 ≤ e.2) := by
  have hres := removePopped_spec hw.1
  have hlen := removePopped_length s
  have hcap := removePopped_capacity s
  have hflag := removePopped_flag s
  unfold MinQueue.pop
  rw [if_neg (by omega)]
  refine ⟨_, rfl, ?_, ?_, ?_, rfl, rfl, ?_, ?_⟩
  · refine ⟨?_, ?_, ?_⟩
    · show heapOrd s.removePoppedElement.store.prios
        (if (true : Bool) = true then s.removePoppedElement.length - 1 + 1
          else s.removePoppedElement.length - 1)
      rw [if_pos rfl, hlen]
      have : s.length - 1 + 1 = s.length := by omega
      rw [this]
      exact hres.1
    · show s.removePoppedElement.length - 1 ≤ s.removePoppedElement._capacity
      rw [hlen, hcap]
      have := hw.2.1
      omega
    · intro _
      show s.removePoppedElement.length - 1 < s.removePoppedElement._capacity
      rw [hlen, hcap]
      have := hw.2.1
      omega
  · show s.removePoppedElement.length - 1 = s.length - 1
    rw [hlen]
  · show s.removePoppedElement._capacity = s._capacity
    exact hcap
  · refine hres.2.symm.trans ?_
    have hlive1 : s.removePoppedElement.live =
        s.removePoppedElement.store.entriesFrom 1 s.length := by
      unfold MinQueue.live
      rw [hflag]
      simp only [Bool.false_eq_true, if_false]
      rw [hlen]
    rw [hlive1]
    have hL1 : s.length = s.length - 1 + 1 := by omega
    rw [hL1, entriesFrom_succ_left]
    show (s.removePoppedElement.store.get 1 ::
        s.removePoppedElement.store.entriesFrom 2 (s.length - 1)).Perm
      (s.removePoppedElement.store.get 1 ::
        (if (true : Bool) = true then
          s.removePoppedElement.store.entriesFrom 2 (s.removePoppedElement.length - 1)
        else s.removePoppedElement.store.entriesFrom 1 (s.removePoppedElement.length - 1)))
    rw [if_pos rfl, hlen]
  · intro e he
    have he1 : e ∈ s.removePoppedElement.live := hres.2.mem_iff.mpr he
    have hlive1 : s.removePoppedElement.live =
        s.removePoppedElement.store.entriesFrom 1 s.length := by
      unfold MinQueue.live
      rw [hflag]
      simp only [Bool.false_eq_true, if_false]
      rw [hlen]
    rw [hlive1] at he1
    exact heapOrd_root_min_entries hres.1 e he1

/-! Specification of the constructor. -/

theorem new_ok {c : Nat} {ks ps : List Nat} {s : MinQueue}
    (h : MinQueue.new c ks ps = .ok s) :
    ks.length = ps.length ∧ ks.length ≤ c ∧ s.length = ks.length ∧
    s._capacity = c ∧ s._hasPoppedElement = false ∧ s.WF ∧
    (s.live).Perm (modPairs ks ps) := by
  unfold MinQueue.new at h
  by_cases h1 : ks.length ≠ ps.length
  · rw [if_pos h1] at h
    cases h
  · rw [if_neg h1] at h
    by_cases h2 : c < ks.length
    · rw [if_pos h2] at h
      cases h
    · rw [if_neg h2] at h
      injection h with h
      subst h
      push_neg at h1
      refine ⟨h1, by omega, rfl, rfl, rfl, ⟨?_, by show ks.length ≤ c; omega, ?_⟩, ?_⟩
      · show heapOrd (heapifyFrom (copyIn ⟨fun _ => 0, fun _ => 0⟩ ks ps 0) ks.length
          (ks.length / 2)).prios
          (if (false : Bool) = true then ks.length + 1 else ks.length)
        simp only [Bool.false_eq_true, if_false]
        exact heapifyFrom_heapOrd _ _
      · intro hh
        cases hh
      · show ((heapifyFrom (copyIn ⟨fun _ => 0, fun _ => 0⟩ ks ps 0) ks.length
          (ks.length / 2)).entriesFrom 1 ks.length).Perm (modPairs ks ps)
        refine (heapifyFrom_perm ks.length (ks.length / 2) _ (by omega)).trans ?_
        have h3 := copyIn_entries ks ps ⟨fun _ => 0, fun _ => 0⟩ 0 h1
        simp only [Nat.zero_add] at h3
        rw [h3]

theorem clear_WF (s : MinQueue) : s.clear.WF := by
  refine ⟨?_, Nat.zero_le _, ?_⟩
  · intro j hj2 hjb
    exfalso
    unfold MinQueue.clear MinQueue.liveBound at hjb
    simp at hjb
    omega
  · intro hh
    cases hh

theorem reachable_WF {s : MinQueue} (h : Reachable s) : s.WF := by
  induction h with
  | init c ks ps s heq => exact (new_ok heq).2.2.2.2.2.1
  | push s k p s' _ heq ih => exact (push_ok ih heq).1
  | pop s _ ih =>
    rcases Nat.eq_zero_or_pos s.length with hL | hL
    · rw [pop_empty hL]
      exact ih
    · obtain ⟨s2, heq, hwf, _⟩ := pop_spec ih hL
      rw [heq]
      exact hwf
  | resolve s _ ih => exact removePopped_WF ih
  | clear s _ _ => exact clear_WF s

theorem live_flag_false {s : MinQueue} (h : s._hasPoppedElement = false) :
    s.live = s.store.entriesFrom 1 s.length := by
  unfold MinQueue.live
  rw [h]
  simp only [Bool.false_eq_true, if_false]

theorem live_flag_true {s : MinQueue} (h : s._hasPoppedElement = true) :
    s.live = s.store.entriesFrom 2 s.length := by
  unfold MinQueue.live
  rw [h, if_pos rfl]

theorem heapInv_flag_false {s : MinQueue} (h : s._hasPoppedElement = false) :
    s.heapInv = heapOrd s.store.prios s.length := by
  unfold MinQueue.heapInv MinQueue.liveBound
  rw [h]
  simp only [Bool.false_eq_true, if_false]

/-! Sequential pushes and the popped-priority sequence. -/

theorem pushList_ok {l : List (Nat × Nat)} :
    ∀ {s s' : MinQueue}, s.WF → pushList s l = .ok s' → s'.WF := by
  induction l with
  | nil =>
    intro s s' hw h
    simp only [pushList] at h
    injection h with h
    subst h
    exact hw
  | cons e l ih =>
    intro s s' hw h
    simp only [pushList] at h
    cases hp : s.push e.1 e.2 with
    | ok s1 =>
      rw [hp] at h
      exact ih (push_ok hw hp).1 h
    | error err =>
      rw [hp] at h
      simp at h

theorem popSeq_succ {s : MinQueue} (hL : ¬ s.length = 0) (fuel : Nat) :
    popSeq s (fuel + 1) =
      s.removePoppedElement.store.prios 1 ::
        popSeq (s.removePoppedElement.pop).2 fuel := by
  simp only [popSeq]
  rw [if_neg hL]
  rfl

theorem popSeq_mem : ∀ (fuel : Nat) {s : MinQueue}, s.WF →
    ∀ x ∈ popSeq s fuel, ∃ e ∈ s.live, x = e.2 := by
  intro fuel
  induction fuel with
  | zero =>
    intro s _ x hx
    simp [popSeq] at hx
  | succ fuel ih =>
    intro s hw x hx
    by_cases hL : s.length = 0
    · simp only [popSeq, if_pos hL] at hx
      cases hx
    · rw [popSeq_succ hL] at hx
      have hw1 : s.removePoppedElement.WF := removePopped_WF hw
      have hL1 : 0 < s.removePoppedElement.length := by rw [removePopped_length]; omega
      have hid : s.removePoppedElement.removePoppedElement = s.removePoppedElement :=
        removePopped_of_flag_false (removePopped_flag s)
      obtain ⟨s2, hpop, hw2, _, _, _, _, hperm, _⟩ := pop_spec hw1 hL1
      rw [hid] at hpop hperm
      rw [hpop] at hx
      have hlives : (s.removePoppedElement.live).Perm s.live := (removePopped_spec hw.1).2
      rcases List.mem_cons.mp hx with hx1 | hx2
      · refine ⟨s.removePoppedElement.store.get 1, ?_, hx1⟩
        have hroot : s.removePoppedElement.store.get 1 ∈ s.removePoppedElement.live :=
          hperm.mem_iff.mpr (List.mem_cons_self _ _)
        exact hlives.mem_iff.mp hroot
      · obtain ⟨e, he2, rfl⟩ := ih hw2 x hx2
        have he1 : e ∈ s.removePoppedElement.live :=
          hperm.mem_iff.mpr (List.mem_cons_of_mem _ he2)
        exact ⟨e, hlives.mem_iff.mp he1, rfl⟩

theorem popSeq_sorted : ∀ (fuel : Nat) {s : MinQueue}, s.WF →
    List.Pairwise (· ≤ ·) (popSeq s fuel) := by
  intro fuel
  induction fuel with
  | zero =>
    intro s _
    exact List.Pairwise.nil
  | succ fuel ih =>
    intro s hw
    by_cases hL : s.length = 0
    · simp only [popSeq, if_pos hL]
      exact List.Pairwise.nil
    · rw [popSeq_succ hL]
      have hw1 : s.removePoppedElement.WF := removePopped_WF hw
      have hL1 : 0 < s.removePoppedElement.length := by rw [removePopped_length]; omega
      have hid : s.removePoppedElement.removePoppedElement = s.removePoppedElement :=
        removePopped_of_flag_false (removePopped_flag s)
      obtain ⟨s2, hpop, hw2, _, _, _, _, hperm, _⟩ := pop_spec hw1 hL1
      rw [hid] at hpop hperm
      rw [hpop]
      refine List.Pairwise.cons ?_ (ih hw2)
      intro x hx
      obtain ⟨e, he2, rfl⟩ := popSeq_mem fuel hw2 x hx
      have he1 : e ∈ s.removePoppedElement.live :=
        hperm.mem_iff.mpr (List.mem_cons_of_mem _ he2)
      rw [live_flag_false (removePopped_flag s)] at he1
      have hOrd : heapOrd s.removePoppedElement.store.prios
          s.removePoppedElement.length := by
        have h1 := hw1.1
        rwa [heapInv_flag_false (removePopped_flag s)] at h1
      exact heapOrd_root_min_entries hOrd e he1

/-! Claim theorems. -/

/-- C1: from any reachable state (all of which satisfy heap order on the
occupied positions `1..liveBound`, where `liveBound` is `length` without a
pending deletion and `length + 1` with one), both a successful
`push(key, priority)` and a `pop()` leave the heap invariant
`priorities[i >>> 1] ≤ priorities[i]` holding at every occupied `i > 1`. -/
theorem C1_heap_invariant_preserved (s : MinQueue) (hs : Reachable s) :
    s.heapInv ∧
    (∀ k p s', s.push k p = .ok s' → s'.heapInv) ∧
    (∀ out, s.pop = out → out.2.heapInv) := by
  have hw := reachable_WF hs
  refine ⟨hw.1, ?_, ?_⟩
  · intro k p s' h
    exact (push_ok hw h).1.1
  · intro out h
    rcases Nat.eq_zero_or_pos s.length with hL | hL
    · rw [← h, pop_empty hL]
      exact hw.1
    · obtain ⟨s2, heq, hwf, _⟩ := pop_spec hw hL
      rw [← h, heq]
      exact hwf.1

theorem C1_witness :
    Reachable qOne ∧
      (qOne.heapInv ∧
        (∀ k p s', qOne.push k p = .ok s' → s'.heapInv) ∧
        (∀ out, qOne.pop = out → out.2.heapInv)) :=
  have hr : Reachable qOne :=
    Reachable.push qTwoCap 1 5 qOne (Reachable.init 2 [] [] qTwoCap rfl) rfl
  ⟨hr, C1_heap_invariant_preserved qOne hr⟩

/-- C2: pushing any sequence of (key, priority) pairs into a fresh empty
queue (all pushes succeeding) and then popping until empty observes the
popped elements' stored priorities in non-decreasing order; `popSeq` records,
before each `pop`, the stored priority of the element that `pop` removes. -/
theorem C2_pops_sorted (c : Nat) (l : List (Nat × Nat)) (s0 s : MinQueue)
    (h0 : MinQueue.new c [] [] = .ok s0) (h : pushList s0 l = .ok s) :
    List.Pairwise (· ≤ ·) (popSeq s s.length) :=
  popSeq_sorted s.length (pushList_ok (new_ok h0).2.2.2.2.2.1 h)

theorem C2_witness :
    ∃ s0 s, MinQueue.new 4 [] [] = .ok s0 ∧
      pushList s0 [(1, 30), (2, 10), (3, 20)] = .ok s ∧
      List.Pairwise (· ≤ ·) (popSeq s s.length) :=
  ⟨_, _, rfl, rfl, C2_pops_sorted 4 [(1, 30), (2, 10), (3, 20)] _ _ rfl rfl⟩

/-- C3: on a non-full queue, `push` succeeds and follows the source
algorithm exactly — pending branch: overwrite the root slot with the (stored,
i.e. truncated) new pair, increment `length`, bubble down from the root,
clear the flag; otherwise: write at position `length + 1`, increment
`length`, bubble up from there — and the resulting live content is the
previous live multiset plus the new stored pair. -/
theorem C3_push_algorithm (s : MinQueue) (k p : Nat) (h : s.length < s._capacity) :
    ∃ s', s.push k p = .ok s' ∧
      s'.length = s.length + 1 ∧ s'._hasPoppedElement = false ∧
      (if s._hasPoppedElement = true then
        s' = { s with
          store := Store.bubbleDown (s.store.set 1 (k % u32, p % u32)) (s.length + 1) 1
          length := s.length + 1
          _hasPoppedElement := false }
      else
        s' = { s with
          store := Store.bubbleUp (s.store.set (s.length + 1) (k % u32, p % u32))
            (s.length + 1)
          length := s.length + 1 }) ∧
      (s'.live).Perm ((k % u32, p % u32) :: s.live) := by
  obtain ⟨s', heq, hlen, hcap, hflag, hperm, _⟩ := push_spec h k p
  refine ⟨s', heq, hlen, hflag, ?_, hperm⟩
  unfold MinQueue.push at heq
  rw [if_neg (by omega)] at heq
  by_cases hb : s._hasPoppedElement = true
  · rw [if_pos hb] at heq ⊢
    injection heq with heq
    exact heq.symm
  · rw [if_neg hb] at heq ⊢
    injection heq with heq
    exact heq.symm

theorem C3_witness :
    qOne.length < qOne._capacity ∧
      (∃ s', qOne.push 9 4 = .ok s' ∧
        s'.length = qOne.length + 1 ∧ s'._hasPoppedElement = false ∧
        (if qOne._hasPoppedElement = true then
          s' = { qOne with
            store := Store.bubbleDown (qOne.store.set 1 (9 % u32, 4 % u32))
              (qOne.length + 1) 1
            length := qOne.length + 1
            _hasPoppedElement := false }
        else
          s' = { qOne with
            store := Store.bubbleUp (qOne.store.set (qOne.length + 1) (9 % u32, 4 % u32))
              (qOne.length + 1)
            length := qOne.length + 1 }) ∧
        (s'.live).Perm ((9 % u32, 4 % u32) :: qOne.live)) :=
  ⟨by decide, C3_push_algorithm qOne 9 4 (by decide)⟩

/-- C4: `push` on a full queue (`length = capacity`) returns the capacity
error and produces no successor state — in this pure embedding the error is
the entire result, mirroring that the source throws before touching
`length`, the flag, or either backing store. -/
theorem C4_push_full_error (s : MinQueue) (k p : Nat) (h : s.length = s._capacity) :
    s.push k p = .error .heapFull :=
  push_full h k p

theorem C4_witness :
    qFull.length = qFull._capacity ∧ qFull.push 3 20 = .error .heapFull :=
  ⟨by decide, C4_push_full_error qFull 3 20 (by decide)⟩

/-- C5: `pop` on an empty queue raises no error: it returns the sentinel
`none` (JS `undefined`) together with the state itself, completely
unchanged. -/
theorem C5_pop_empty_noop (s : MinQueue) (h : s.length = 0) : s.pop = (none, s) :=
  pop_empty h

theorem C5_witness : qEmpty64.length = 0 ∧ qEmpty64.pop = (none, qEmpty64) :=
  ⟨rfl, C5_pop_empty_noop qEmpty64 rfl⟩

/-- C6 (code bug): `dumpRawPriorities` on an empty queue does not return an
empty-queue marker — the source computes `Array(this.length - ROOT_INDEX)`,
i.e. `Array(-1)` when `length = 0`, which throws a JS `RangeError: Invalid
array length`; the claim's marker behaviour (and the test suite's
`"(empty queue)"` expectation) is contradicted at this input. -/
theorem C6_dump_empty_throws :
    ∃ s0, MinQueue.new 64 [] [] = .ok s0 ∧ s0.length = 0 ∧
      (s0.dumpRawPriorities).1 = .error .invalidArrayLength ∧
      ∀ out, (s0.dumpRawPriorities).1 ≠ .ok out :=
  ⟨_, rfl, rfl, rfl, fun out h => by cases h⟩

/-- C7: the concrete trace of the spec — capacity 64; push (1,10), (2,20),
(3,30); dump `"[10 20 30]"`; push (4,40); dump `"[10 20 30 40]"`; `pop`
returns key 1; the next dump resolves the pending deletion (40 moves to the
root and bubbles down past 20) giving `"[20 40 30]"`. -/
theorem C7_concrete_trace :
    ∃ s0 s1 s2 s3 s4,
      MinQueue.new 64 [] [] = .ok s0 ∧
      s0.push 1 10 = .ok s1 ∧
      s1.push 2 20 = .ok s2 ∧
      s2.push 3 30 = .ok s3 ∧
      (s3.dumpRawPriorities).1 = .ok "[10 20 30]" ∧
      ((s3.dumpRawPriorities).2).push 4 40 = .ok s4 ∧
      (s4.dumpRawPriorities).1 = .ok "[10 20 30 40]" ∧
      (((s4.dumpRawPriorities).2).pop).1 = some 1 ∧
      (((((s4.dumpRawPriorities).2).pop).2).dumpRawPriorities).1 = .ok "[20 40 30]" :=
  ⟨_, _, _, _, _, rfl, rfl, rfl, rfl, rfl, rfl, rfl, rfl, rfl⟩

/-- C8: bulk construction with `n ≤ c` pairs succeeds, sets size `n`, leaves
no pending deletion, restores the heap invariant (the constructor bubbles
down every index from `n >>> 1` to the root), its live content is exactly
the stored input pairs, and `peek()` then returns a key paired with the
minimum stored priority; concretely, `new(100, [1, 2], [50, 1])` has size 2
and `peek() = 2`. -/
theorem C8_bulk_construction (c n : Nat) (ks ps : List Nat) (s : MinQueue)
    (hk : ks.length = n) (hp : ps.length = n) (_hc : n ≤ c)
    (h : MinQueue.new c ks ps = .ok s) :
    (s.size = n ∧ s._hasPoppedElement = false ∧ s.heapInv ∧
      (s.live).Perm (modPairs ks ps) ∧
      (0 < n → ∃ q, ((s.peek).1, q) ∈ s.live ∧ ∀ e ∈ s.live, q ≤ e.2)) ∧
    (∃ t, MinQueue.new 100 [1, 2] [50, 1] = .ok t ∧ t.size = 2 ∧ (t.peek).1 = 2) := by
  obtain ⟨h1, h2, h3, h4, h5, h6, h7⟩ := new_ok h
  refine ⟨⟨by rw [MinQueue.size, h3, hk], h5, h6.1, h7, ?_⟩, ⟨_, rfl, rfl, rfl⟩⟩
  intro hn
  have hres : s.removePoppedElement = s := removePopped_of_flag_false h5
  have hpeek : (s.peek).1 = s.store.keys 1 := by
    unfold MinQueue.peek
    rw [hres]
  have hord : heapOrd s.store.prios s.length := by
    have := h6.1
    rwa [heapInv_flag_false h5] at this
  refine ⟨s.store.prios 1, ?_, ?_⟩
  · rw [hpeek, live_flag_false h5]
    exact mem_entriesFrom.mpr ⟨1, Nat.le_refl 1, by omega, rfl⟩
  · intro e he
    rw [live_flag_false h5] at he
    exact heapOrd_root_min_entries hord e he

theorem C8_witness :
    ([1, 2] : List Nat).length = 2 ∧ ([50, 1] : List Nat).length = 2 ∧ 2 ≤ 100 ∧
      ∃ s, MinQueue.new 100 [1, 2] [50, 1] = .ok s ∧
        (s.size = 2 ∧ s._hasPoppedElement = false ∧ s.heapInv ∧
          (s.live).Perm (modPairs [1, 2] [50, 1]) ∧
          (0 < 2 → ∃ q, ((s.peek).1, q) ∈ s.live ∧ ∀ e ∈ s.live, q ≤ e.2)) :=
  ⟨rfl, rfl, by omega, _, rfl,
    (C8_bulk_construction 100 2 [1, 2] [50, 1] _ rfl rfl (by omega) rfl).1⟩

/-- C9 (spec-modelled: `popPush` is not in src/src/heapify.ts, only its tests
are; it is modelled from the spec as the literal sequence `pop` then `push`,
returning pop's captured result): `popPush` equals that literal composition
definitionally; on a well-formed non-empty queue — even at full capacity — it
never fails and returns the popped minimum's key; on an empty queue it
behaves exactly like a plain `push` and returns the sentinel `none`. -/
theorem C9_popPush_spec (s : MinQueue) (k p : Nat) :
    (s.popPush k p =
      ((s.pop).2.push k p).map (fun s2 => ((s.pop).1, s2))) ∧
    (s.WF → 0 < s.length →
      ∃ s2, s.popPush k p = .ok (some (s.removePoppedElement.store.keys 1), s2)) ∧
    (s.length = 0 → s.popPush k p = (s.push k p).map (fun s2 => (none, s2))) := by
  refine ⟨rfl, ?_, ?_⟩
  · intro hw hL
    obtain ⟨s2, hpop, _, hlen2, hcap2, _, _, _, _⟩ := pop_spec hw hL
    unfold MinQueue.popPush
    rw [hpop]
    show ∃ s3, (s2.push k p).map _ = _
    have hlt : s2.length < s2._capacity := by
      rw [hlen2, hcap2]
      have := hw.2.1
      omega
    obtain ⟨s3, hpush, _⟩ := push_spec hlt k p
    rw [hpush]
    exact ⟨s3, rfl⟩
  · intro hL
    unfold MinQueue.popPush
    rw [pop_empty hL]

theorem C9_witness :
    qFull.WF ∧ 0 < qFull.length ∧ qFull.length = qFull._capacity ∧
      (∃ s2, qFull.popPush 3 4 = .ok (some (qFull.removePoppedElement.store.keys 1), s2)) ∧
      qEmpty64.popPush 3 4 = (qEmpty64.push 3 4).map (fun s2 => (none, s2)) :=
  have hw : qFull.WF := reachable_WF
    (Reachable.push qOne 2 6 qFull
      (Reachable.push qTwoCap 1 5 qOne (Reachable.init 2 [] [] qTwoCap rfl) rfl) rfl)
  ⟨hw, by decide, by decide, (C9_popPush_spec qFull 3 4).2.1 hw (by decide),
    (C9_popPush_spec qEmpty64 3 4).2.2 rfl⟩

/-- C10: in every reachable state a pending deletion implies
`length < capacity`, hence position `length + 1` — read by
`removePoppedElement` and overwritten-for-free by the pending branch of
`push` — lies within the backing arrays (which have `capacity + 1` slots),
and a pending-branch `push` cannot overflow them. -/
theorem C10_pending_within_capacity (s : MinQueue) (hs : Reachable s)
    (hp : s._hasPoppedElement = true) :
    s.length < s._capacity ∧ s.length + 1 ≤ s._capacity := by
  have hw := reachable_WF hs
  have := hw.2.2 hp
  omega

theorem C10_witness :
    Reachable qPend ∧ qPend._hasPoppedElement = true ∧
      (qPend.length < qPend._capacity ∧ qPend.length + 1 ≤ qPend._capacity) :=
  have hr : Reachable qPend :=
    Reachable.pop qOne
      (Reachable.push qTwoCap 1 5 qOne (Reachable.init 2 [] [] qTwoCap rfl) rfl)
  ⟨hr, rfl, C10_pending_within_capacity qPend hr rfl⟩

end Heapify
